import Mathlib

/-!
Verification of the codegraph-lib core: a shallow embedding of the entity
store (`src/code_graph/mod.rs` plus `node.rs` / `relationship.rs`), the
relationship-inference engine (`src/indexing/analyzer.rs`) and the
enhancement passes, with theorems settling the specification claims.

Modelling conventions:

* Rust `HashMap` values are association lists with `HashMap::insert` /
  `entry().or_insert_with(..)` semantics (`entryModify`, `modifyA`,
  `getA`); `HashSet` buckets are lists with insert-if-absent.  Rust hash
  iteration order is unspecified; the model fixes insertion order, a
  deterministic refinement, and every claim below is insensitive to
  that order.
* Rust `String::len()` is UTF-8 byte length, modelled by
  `String.utf8ByteSize`; `usize` line numbers are `Nat`.
* Effects consumed by the analyzer (file reads, language detection, the
  per-language extractor trait objects) are oracle parameters: the
  inference engine is specified relative to arbitrary collaborator
  results, exactly the shape in which the Rust code consumes them.
* The `while let` loop of `find_related_nodes` carries an explicit fuel
  parameter.  The chosen fuel `edgeSizes g + 1` dominates the iteration
  count: each iteration pops one stack entry, and at most one initial
  entry plus one entry per element of the two edge maps is ever pushed
  (a node is expanded at most once, guarded by the visited set), so the
  model never exhausts the fuel and agrees with the Rust loop.
* The traversal result set of `&CodeNode` values is represented by the
  set of node keys inserted, which determines it (the nodes are the
  map lookups of those keys).
-/

/-- Mirrors `NodeType` in `src/code_graph/node.rs`. -/
inductive NodeType where
  | Function
  | Method
  | Class
  | Interface
  | Module
  | TypeDefinition
  | Unknown
deriving DecidableEq, Repr

/-- Mirrors `CodeNode` in `src/code_graph/node.rs`; `metadata` is the
`HashMap<String, String>` as an association list. -/
structure CodeNode where
  id : String
  node_type : NodeType
  name : String
  file_path : String
  line_range : Nat × Nat
  content : String
  summary : Option String
  metadata : List (String × String)
deriving DecidableEq, Repr

/-- Mirrors `RelationshipType` in `src/code_graph/relationship.rs`. -/
inductive RelationshipType where
  | Calls
  | Imports
  | Inherits
  | References
  | Implements
  | Contains
  | DependsOn
deriving DecidableEq, Repr

/-- Mirrors `Relationship` in `src/code_graph/relationship.rs`. -/
structure Relationship where
  relationship_type : RelationshipType
  from_id : String
  to_id : String
  metadata : List (String × String)
deriving DecidableEq, Repr

/-- `HashMap::get`: value of the entry with the given key. -/
def getA {κ β : Type} [DecidableEq κ] : List (κ × β) → κ → Option β
  | [], _ => none
  | e :: rest, k => if e.1 = k then some e.2 else getA rest k

/-- `HashMap::entry(k).or_insert_with(|| dflt)` followed by an in-place
update `f` of the entry's value: modifies the entry with key `k`, or
appends `(k, f dflt)` when the key is absent. -/
def entryModify {κ β : Type} [DecidableEq κ] (k : κ) (dflt : β) (f : β → β) :
    List (κ × β) → List (κ × β)
  | [] => [(k, f dflt)]
  | e :: rest => if e.1 = k then (e.1, f e.2) :: rest else e :: entryModify k dflt f rest

/-- `HashMap::get_mut(k)` followed by an in-place update: modifies the
entry with key `k` when present, otherwise leaves the map unchanged. -/
def modifyA {κ β : Type} [DecidableEq κ] (k : κ) (f : β → β) :
    List (κ × β) → List (κ × β)
  | [] => []
  | e :: rest => if e.1 = k then (e.1, f e.2) :: rest else e :: modifyA k f rest

/-- `HashSet::insert` on a bucket, keeping insertion order. -/
def insertIfAbsent (l : List String) (x : String) : List String :=
  if x ∈ l then l else l ++ [x]

/-- Mirrors `CodeGraph` in `src/code_graph/mod.rs`: primary node map,
both adjacency maps, and the three secondary indices. -/
structure CodeGraph where
  nodes : List (String × CodeNode)
  outgoing_edges : List (String × List Relationship)
  incoming_edges : List (String × List Relationship)
  nodes_by_type : List (NodeType × List String)
  nodes_by_file : List (String × List String)
  nodes_by_name : List (String × List String)
deriving DecidableEq, Repr

/-- `CodeGraph::new`. -/
def CodeGraph.new : CodeGraph :=
  ⟨[], [], [], [], [], []⟩

/-- `CodeGraph::add_node`: updates the three secondary indices, creates
the two (initially empty) adjacency buckets, and inserts into the
primary map. -/
def CodeGraph.add_node (g : CodeGraph) (node : CodeNode) : CodeGraph :=
  { nodes := entryModify node.id node (fun _ => node) g.nodes
    outgoing_edges := entryModify node.id [] id g.outgoing_edges
    incoming_edges := entryModify node.id [] id g.incoming_edges
    nodes_by_type := entryModify node.node_type [] (fun b => insertIfAbsent b node.id) g.nodes_by_type
    nodes_by_file := entryModify node.file_path [] (fun b => insertIfAbsent b node.id) g.nodes_by_file
    nodes_by_name := entryModify node.name [] (fun b => insertIfAbsent b node.id) g.nodes_by_name }

/-- `CodeGraph::add_relationship`: appends to the source's outgoing
bucket and the target's incoming bucket. -/
def CodeGraph.add_relationship (g : CodeGraph) (r : Relationship) : CodeGraph :=
  { g with
    outgoing_edges := entryModify r.from_id [] (fun b => b ++ [r]) g.outgoing_edges
    incoming_edges := entryModify r.to_id [] (fun b => b ++ [r]) g.incoming_edges }

/-- `CodeGraph::get_node`. -/
def CodeGraph.get_node (g : CodeGraph) (id : String) : Option CodeNode :=
  getA g.nodes id

/-- `CodeGraph::all_nodes` (`self.nodes.values()`), in the model's fixed
map order. -/
def CodeGraph.all_nodes (g : CodeGraph) : List CodeNode :=
  g.nodes.map Prod.snd

/-- `CodeGraph::find_nodes_by_name`: by-name index lookup resolved
through the primary map. -/
def CodeGraph.find_nodes_by_name (g : CodeGraph) (name : String) : List CodeNode :=
  match getA g.nodes_by_name name with
  | some ids => ids.filterMap (getA g.nodes)
  | none => []

/-- Well-formedness that `add_node` guarantees for the real store: every
primary-map entry is keyed by its node's `id` field, and keys are
unique (Rust `HashMap` keys are unique by construction). -/
def WFNodes (g : CodeGraph) : Prop :=
  (∀ e ∈ g.nodes, e.2.id = e.1) ∧ (g.nodes.map Prod.fst).Nodup

instance (g : CodeGraph) : Decidable (WFNodes g) := by
  unfold WFNodes; infer_instance

/-- The single update `enhance_method_names` performs on one node's
name, as a function of that node: `"{parent_class}::{name}"` for a
Method with `parent_class` metadata, the unchanged name otherwise. -/
def qualifiedName (n : CodeNode) : String :=
  if n.node_type = NodeType.Method then
    match getA n.metadata "parent_class" with
    | some parent_class => parent_class ++ "::" ++ n.name
    | none => n.name
  else n.name

/-- `enhance_method_names` in `src/indexing/analyzer.rs`: first collect
`(id, "{parent_class}::{name}")` for every Method node with
`parent_class` metadata, then rewrite each collected node's `name`
through `get_node_mut`. -/
def enhance_method_names (g : CodeGraph) : CodeGraph :=
  let methods_to_update : List (String × String) :=
    g.all_nodes.filterMap fun node =>
      if node.node_type = NodeType.Method then
        match getA node.metadata "parent_class" with
        | some parent_class => some (node.id, parent_class ++ "::" ++ node.name)
        | none => none
      else none
  { g with
    nodes := methods_to_update.foldl
      (fun ns u => modifyA u.1 (fun n => { n with name := u.2 }) ns) g.nodes }

/-- The per-node collection step of `enhance_method_names`: the
`(id, enhanced_name)` pair pushed for a Method node with `parent_class`
metadata, `none` otherwise. -/
def methodUpdate (node : CodeNode) : Option (String × String) :=
  if node.node_type = NodeType.Method then
    match getA node.metadata "parent_class" with
    | some parent_class => some (node.id, parent_class ++ "::" ++ node.name)
    | none => none
  else none

theorem methodUpdate_some {n : CodeNode} {u : String × String}
    (h : methodUpdate n = some u) : u.1 = n.id ∧ u.2 = qualifiedName n := by
  obtain ⟨u1, u2⟩ := u
  unfold methodUpdate at h
  unfold qualifiedName
  by_cases hm : n.node_type = NodeType.Method
  · simp [hm] at h ⊢
    cases hp : getA n.metadata "parent_class" with
    | none => simp [hp] at h
    | some p =>
      simp [hp, Prod.mk.injEq] at h ⊢
      exact ⟨h.1.symm, h.2.symm⟩
  · simp [hm] at h

theorem methodUpdate_none {n : CodeNode}
    (h : methodUpdate n = none) : qualifiedName n = n.name := by
  unfold methodUpdate at h
  unfold qualifiedName
  by_cases hm : n.node_type = NodeType.Method
  · simp [hm] at h ⊢
    cases hp : getA n.metadata "parent_class" with
    | none => simp
    | some p => simp [hp] at h
  · simp [hm]

theorem getA_modifyA {κ β : Type} [DecidableEq κ] (k j : κ) (f : β → β)
    (l : List (κ × β)) :
    getA (modifyA k f l) j = if j = k then (getA l k).map f else getA l j := by
  induction l with
  | nil => by_cases hjk : j = k <;> simp [modifyA, getA, hjk]
  | cons e rest ih =>
    by_cases hek : e.1 = k
    · by_cases hjk : j = k
      · have hej : e.1 = j := hek.trans hjk.symm
        simp [modifyA, getA, hek, hej, hjk]
      · have hej : ¬ e.1 = j := fun h => hjk (h.symm.trans hek)
        have hkj : ¬ k = j := fun h => hjk h.symm
        simp [modifyA, getA, hek, hej, hjk, hkj]
    · by_cases hej : e.1 = j
      · have hjk : ¬ j = k := fun h => hek (hej.trans h)
        simp [modifyA, getA, hek, hej, hjk]
      · simp [modifyA, getA, hek, hej, ih]

theorem modifyA_map_fst {κ β : Type} [DecidableEq κ] (k : κ) (f : β → β)
    (l : List (κ × β)) :
    (modifyA k f l).map Prod.fst = l.map Prod.fst := by
  induction l with
  | nil => simp [modifyA]
  | cons e rest ih =>
    by_cases hek : e.1 = k <;> simp [modifyA, hek, ih]

/-- The name-update fold of `enhance_method_names`, as a standalone
function of the primary map. -/
def applyNameUpdates (U : List (String × String))
    (l : List (String × CodeNode)) : List (String × CodeNode) :=
  U.foldl (fun ns u => modifyA u.1 (fun n => { n with name := u.2 }) ns) l

theorem applyNameUpdates_map_fst (U : List (String × String))
    (l : List (String × CodeNode)) :
    (applyNameUpdates U l).map Prod.fst = l.map Prod.fst := by
  induction U generalizing l with
  | nil => rfl
  | cons u U ih => simp [applyNameUpdates, List.foldl_cons] at ih ⊢
                   rw [ih, modifyA_map_fst]

theorem getA_applyNameUpdates (U : List (String × String))
    (l : List (String × CodeNode)) (j : String) :
    getA (applyNameUpdates U l) j
      = (getA l j).map fun n =>
          U.foldl (fun n u => if u.1 = j then { n with name := u.2 } else n) n := by
  induction U generalizing l with
  | nil => cases h : getA l j <;> simp [applyNameUpdates, h]
  | cons u U ih =>
    show getA (applyNameUpdates U (modifyA u.1 _ l)) j = _
    rw [ih, getA_modifyA]
    by_cases hj : j = u.1
    · subst hj
      cases h : getA l u.1 <;> simp [h, Function.comp]
    · have hune : ¬ u.1 = j := fun h => hj h.symm
      cases h : getA l j <;> simp [h, hj, hune, Function.comp]

theorem foldl_name_updates_filter (U : List (String × String)) (j : String)
    (n : CodeNode) :
    U.foldl (fun n u => if u.1 = j then { n with name := u.2 } else n) n
      = (U.filter (fun u => decide (u.1 = j))).foldl
          (fun n u => { n with name := u.2 }) n := by
  induction U generalizing n with
  | nil => rfl
  | cons u U ih =>
    by_cases hu : u.1 = j <;> simp [hu, ih]

theorem getA_some_mem {κ β : Type} [DecidableEq κ] {l : List (κ × β)} {k : κ}
    {v : β} (h : getA l k = some v) : (k, v) ∈ l := by
  induction l with
  | nil => simp [getA] at h
  | cons e rest ih =>
    by_cases he : e.1 = k
    · simp [getA, he] at h
      subst he
      simp [← h]
    · simp [getA, he] at h
      exact List.mem_cons_of_mem _ (ih h)

theorem mem_getA_of_nodup {κ β : Type} [DecidableEq κ] {l : List (κ × β)}
    (hnd : (l.map Prod.fst).Nodup) {e : κ × β} (he : e ∈ l) :
    getA l e.1 = some e.2 := by
  induction l with
  | nil => simp at he
  | cons x rest ih =>
    rcases List.mem_cons.mp he with rfl | hmem
    · simp [getA]
    · have hx : ¬ x.1 = e.1 := by
        intro hxe
        have : e.1 ∈ rest.map Prod.fst := List.mem_map.mpr ⟨e, hmem, rfl⟩
        exact (List.nodup_cons.mp hnd).1 (hxe ▸ this)
      simp [getA, hx]
      exact ih (List.nodup_cons.mp hnd).2 hmem

theorem collect_notin (l : List (String × CodeNode))
    (hid : ∀ e ∈ l, e.2.id = e.1) (j : String)
    (hj : ¬ j ∈ l.map Prod.fst) :
    ((l.map Prod.snd).filterMap methodUpdate).filter
        (fun u => decide (u.1 = j)) = [] := by
  apply List.filter_eq_nil.mpr
  intro u hu
  obtain ⟨m, hm, hmu⟩ := List.mem_filterMap.mp hu
  obtain ⟨e, he, rfl⟩ := List.mem_map.mp hm
  simp only [decide_eq_true_eq]
  intro huj
  apply hj
  rw [← huj, (methodUpdate_some hmu).1, hid e he]
  exact List.mem_map.mpr ⟨e, he, rfl⟩

theorem collect_at_key (l : List (String × CodeNode))
    (hid : ∀ e ∈ l, e.2.id = e.1) (hnd : (l.map Prod.fst).Nodup) (j : String) :
    ((l.map Prod.snd).filterMap methodUpdate).filter (fun u => decide (u.1 = j))
      = match getA l j with
        | some n =>
          match methodUpdate n with
          | some u => [u]
          | none => []
        | none => [] := by
  induction l with
  | nil => simp [getA]
  | cons e rest ih =>
    have hid' : ∀ x ∈ rest, x.2.id = x.1 := fun x hx => hid x (List.mem_cons_of_mem _ hx)
    have hnd2 : (e.1 :: rest.map Prod.fst).Nodup := by simpa using hnd
    have hnd' : (rest.map Prod.fst).Nodup := (List.nodup_cons.mp hnd2).2
    have hhead : e.1 ∉ rest.map Prod.fst := (List.nodup_cons.mp hnd2).1
    have hmap : List.map Prod.snd (e :: rest) = e.2 :: List.map Prod.snd rest := rfl
    by_cases hej : e.1 = j
    · have hg : getA (e :: rest) j = some e.2 := by simp [getA, hej]
      have hrest := collect_notin rest hid' j (hej ▸ hhead)
      cases hu : methodUpdate e.2 with
      | some u =>
        have hu1 : u.1 = j := by
          rw [(methodUpdate_some hu).1, hid e (List.mem_cons_self e rest)]
          exact hej
        calc ((List.map Prod.snd (e :: rest)).filterMap methodUpdate).filter
              (fun u => decide (u.1 = j))
            = (u :: (List.map Prod.snd rest).filterMap methodUpdate).filter
                (fun u => decide (u.1 = j)) := by
              rw [hmap, List.filterMap_cons_some hu]
          _ = u :: ((List.map Prod.snd rest).filterMap methodUpdate).filter
                (fun u => decide (u.1 = j)) := by
              rw [List.filter_cons]
              simp [hu1]
          _ = [u] := by rw [hrest]
          _ = _ := by simp [hg, hu]
      | none =>
        calc ((List.map Prod.snd (e :: rest)).filterMap methodUpdate).filter
              (fun u => decide (u.1 = j))
            = ((List.map Prod.snd rest).filterMap methodUpdate).filter
                (fun u => decide (u.1 = j)) := by
              rw [hmap, List.filterMap_cons_none hu]
          _ = [] := hrest
          _ = _ := by simp [hg, hu]
    · have hg : getA (e :: rest) j = getA rest j := by simp [getA, hej]
      cases hu : methodUpdate e.2 with
      | some u =>
        have hu1 : ¬ u.1 = j := by
          rw [(methodUpdate_some hu).1, hid e (List.mem_cons_self e rest)]
          exact hej
        calc ((List.map Prod.snd (e :: rest)).filterMap methodUpdate).filter
              (fun u => decide (u.1 = j))
            = (u :: (List.map Prod.snd rest).filterMap methodUpdate).filter
                (fun u => decide (u.1 = j)) := by
              rw [hmap, List.filterMap_cons_some hu]
          _ = ((List.map Prod.snd rest).filterMap methodUpdate).filter
                (fun u => decide (u.1 = j)) := by
              rw [List.filter_cons]
              simp [hu1]
          _ = _ := by rw [ih hid' hnd', hg]
      | none =>
        calc ((List.map Prod.snd (e :: rest)).filterMap methodUpdate).filter
              (fun u => decide (u.1 = j))
            = ((List.map Prod.snd rest).filterMap methodUpdate).filter
                (fun u => decide (u.1 = j)) := by
              rw [hmap, List.filterMap_cons_none hu]
          _ = _ := by rw [ih hid' hnd', hg]

theorem enhance_nodes_get (g : CodeGraph) (hWF : WFNodes g) (j : String) :
    (enhance_method_names g).get_node j
      = (g.get_node j).map fun n => { n with name := qualifiedName n } := by
  have hfil := collect_at_key g.nodes hWF.1 hWF.2 j
  show getA (applyNameUpdates (g.all_nodes.filterMap methodUpdate) g.nodes) j = _
  rw [getA_applyNameUpdates]
  unfold CodeGraph.get_node
  cases h : getA g.nodes j with
  | none => simp
  | some n =>
    rw [h] at hfil
    simp only [Option.map_some', Option.some.injEq]
    rw [foldl_name_updates_filter]
    simp only [CodeGraph.all_nodes]
    rw [hfil]
    cases hu : methodUpdate n with
    | some u =>
      simp only [hu, List.foldl_cons, List.foldl_nil]
      simp [(methodUpdate_some hu).2]
    | none =>
      simp only [hu, List.foldl_nil]
      simp [methodUpdate_none hu]

theorem enhance_map_fst (g : CodeGraph) :
    (enhance_method_names g).nodes.map Prod.fst = g.nodes.map Prod.fst :=
  applyNameUpdates_map_fst _ _

theorem WFNodes_enhance (g : CodeGraph) (hWF : WFNodes g) :
    WFNodes (enhance_method_names g) := by
  have hkeys := enhance_map_fst g
  constructor
  · intro e he
    have hnd' : ((enhance_method_names g).nodes.map Prod.fst).Nodup := by
      rw [hkeys]; exact hWF.2
    have hget : (enhance_method_names g).get_node e.1 = some e.2 :=
      mem_getA_of_nodup hnd' he
    rw [enhance_nodes_get g hWF e.1] at hget
    cases h : g.get_node e.1 with
    | none => rw [h] at hget; simp at hget
    | some n =>
      rw [h] at hget
      simp only [Option.map_some', Option.some.injEq] at hget
      have : n.id = e.1 := hWF.1 (e.1, n) (getA_some_mem h)
      rw [← hget]
      exact this
  · rw [hkeys]; exact hWF.2

/-- A concrete store holding one Method node whose `parent_class`
metadata is `"Owner"` and whose name is `"n"`. -/
def mNode : CodeNode :=
  { id := "m1", node_type := NodeType.Method, name := "n", file_path := "f.rs",
    line_range := (1, 3), content := "fn n() {}", summary := none,
    metadata := [("parent_class", "Owner")] }

def mGraph : CodeGraph :=
  CodeGraph.new.add_node mNode

/-- C1 counterexample: the name-qualification pass is not idempotent.
On a store with a Method node named `"n"` carrying `parent_class`
metadata `"Owner"`, one run produces name `"Owner::n"` but a second run
produces `"Owner::Owner::n"`, so running the pass twice does not yield
the same final name as running it once. -/
theorem enhance_method_names_idempotence_cex :
    ((enhance_method_names mGraph).get_node "m1").map CodeNode.name
        = some "Owner::n" ∧
    ((enhance_method_names (enhance_method_names mGraph)).get_node "m1").map
        CodeNode.name = some "Owner::Owner::n" ∧
    (enhance_method_names (enhance_method_names mGraph)).get_node "m1"
        ≠ (enhance_method_names mGraph).get_node "m1" := by
  decide

/-- C1 (amended): on any well-formed store, one run of the
name-qualification pass rewrites a Method node with `parent_class`
metadata `p` and name `n` to `"p::n"`, and a second run prepends the
owner again, yielding `"p::p::n"` — so the pass double-qualifies
instead of being idempotent. -/
theorem enhance_method_names_double_qualifies (g : CodeGraph)
    (hWF : WFNodes g) (k p : String) (n : CodeNode)
    (hget : g.get_node k = some n) (hm : n.node_type = NodeType.Method)
    (hp : getA n.metadata "parent_class" = some p) :
    (enhance_method_names g).get_node k
        = some { n with name := p ++ "::" ++ n.name } ∧
    (enhance_method_names (enhance_method_names g)).get_node k
        = some { n with name := p ++ "::" ++ (p ++ "::" ++ n.name) } := by
  have hq : qualifiedName n = p ++ "::" ++ n.name := by
    simp [qualifiedName, hm, hp]
  have h1 : (enhance_method_names g).get_node k
      = some { n with name := p ++ "::" ++ n.name } := by
    rw [enhance_nodes_get g hWF k, hget]
    simp [hq]
  refine ⟨h1, ?_⟩
  rw [enhance_nodes_get (enhance_method_names g) (WFNodes_enhance g hWF) k, h1]
  have hq2 : qualifiedName { n with name := p ++ "::" ++ n.name }
      = p ++ "::" ++ (p ++ "::" ++ n.name) := by
    simp [qualifiedName, hm, hp]
  simp [hq2]

theorem enhance_method_names_double_qualifies_witness :
    (enhance_method_names mGraph).get_node "m1"
        = some { mNode with name := "Owner" ++ "::" ++ mNode.name } ∧
    (enhance_method_names (enhance_method_names mGraph)).get_node "m1"
        = some { mNode with name := "Owner" ++ "::" ++ ("Owner" ++ "::" ++ mNode.name) } :=
  enhance_method_names_double_qualifies mGraph (by decide) "m1" "Owner" mNode
    (by decide) (by decide) (by decide)

/-- C10: `enhance_method_names` only rewrites the `name` field, and
only on Method nodes carrying `parent_class` metadata.  Both edge maps,
all three secondary indices, and the set of node keys are unchanged (no
node or edge is added or removed), and every node's post-pass value is
its pre-pass value with only `name` replaced by `qualifiedName` — which
differs from the old name only on Method nodes with `parent_class`
metadata, leaving `id`, `kind`, `file_path`, `line_range`, `content`,
`summary` and `metadata` untouched. -/
theorem enhance_method_names_frame (g : CodeGraph) (hWF : WFNodes g) :
    (enhance_method_names g).outgoing_edges = g.outgoing_edges ∧
    (enhance_method_names g).incoming_edges = g.incoming_edges ∧
    (enhance_method_names g).nodes_by_type = g.nodes_by_type ∧
    (enhance_method_names g).nodes_by_file = g.nodes_by_file ∧
    (enhance_method_names g).nodes_by_name = g.nodes_by_name ∧
    (enhance_method_names g).nodes.map Prod.fst = g.nodes.map Prod.fst ∧
    ∀ k, (enhance_method_names g).get_node k
        = (g.get_node k).map fun n => { n with name := qualifiedName n } :=
  ⟨rfl, rfl, rfl, rfl, rfl, enhance_map_fst g, fun k => enhance_nodes_get g hWF k⟩

theorem enhance_method_names_frame_witness :
    (enhance_method_names mGraph).outgoing_edges = mGraph.outgoing_edges ∧
    (enhance_method_names mGraph).nodes.map Prod.fst = mGraph.nodes.map Prod.fst ∧
    (enhance_method_names mGraph).get_node "m1"
        = (mGraph.get_node "m1").map fun n => { n with name := qualifiedName n } :=
  ⟨(enhance_method_names_frame mGraph (by decide)).1,
   (enhance_method_names_frame mGraph (by decide)).2.2.2.2.2.1,
   (enhance_method_names_frame mGraph (by decide)).2.2.2.2.2.2 "m1"⟩

/-- Total number of entries of both edge maps; `edgeSizes g + 1` bounds
the iteration count of `find_related_nodes` (one pop per iteration, at
most one initial push plus one push per edge-map entry). -/
def CodeGraph.edgeSizes (g : CodeGraph) : Nat :=
  (g.outgoing_edges.map (fun e => e.2.length)).sum
    + (g.incoming_edges.map (fun e => e.2.length)).sum

/-- The `while let Some((current_id, current_depth)) = to_visit.pop()`
loop of `CodeGraph::find_related_nodes`.  The model's stack has its top
at the head (Rust pushes to / pops from the `Vec` tail), the visited
and result sets are lists, and the loop runs on explicit fuel. -/
def find_related_aux (g : CodeGraph) (depth : Nat) :
    Nat → List (String × Nat) → List String → List String → List String
  | 0, _, _, result => result
  | _ + 1, [], _, result => result
  | fuel + 1, (cid, cd) :: rest, visited, result =>
    if cd > depth ∨ cid ∈ visited then
      find_related_aux g depth fuel rest visited result
    else
      let visited' := cid :: visited
      match getA g.nodes cid with
      | none => find_related_aux g depth fuel rest visited' result
      | some _ =>
        let result' := insertIfAbsent result cid
        if cd < depth then
          let afterOut := (match getA g.outgoing_edges cid with
            | some outs => outs
            | none => []).foldl (fun st (rel : Relationship) => (rel.to_id, cd + 1) :: st) rest
          let stack' := (match getA g.incoming_edges cid with
            | some ins => ins
            | none => []).foldl (fun st (rel : Relationship) => (rel.from_id, cd + 1) :: st) afterOut
          find_related_aux g depth fuel stack' visited' result'
        else
          find_related_aux g depth fuel rest visited' result'

/-- `CodeGraph::find_related_nodes`, returning the set of keys of the
nodes inserted into the result set. -/
def CodeGraph.find_related_nodes (g : CodeGraph) (node_id : String)
    (depth : Nat) : List String :=
  find_related_aux g depth (g.edgeSizes + 1) [(node_id, 0)] [] []

theorem find_related_aux_nil (g : CodeGraph) (depth : Nat) (fuel : Nat)
    (visited result : List String) :
    find_related_aux g depth fuel [] visited result = result := by
  cases fuel <;> rfl

theorem find_related_zero_eq (g : CodeGraph) (node_id : String) :
    g.find_related_nodes node_id 0
      = if (g.get_node node_id).isSome then [node_id] else [] := by
  show find_related_aux g 0 (g.edgeSizes + 1) [(node_id, 0)] [] [] = _
  simp only [find_related_aux]
  rw [if_neg (by simp)]
  cases h : getA g.nodes node_id with
  | none => simp [CodeGraph.get_node, h, find_related_aux_nil]
  | some n => simp [CodeGraph.get_node, h, find_related_aux_nil, insertIfAbsent]

theorem subset_insertIfAbsent (l : List String) (x : String) :
    l ⊆ insertIfAbsent l x := by
  by_cases h : x ∈ l <;> simp [insertIfAbsent, h]

theorem find_related_aux_result_subset (g : CodeGraph) (depth : Nat) :
    ∀ fuel stack visited result,
      result ⊆ find_related_aux g depth fuel stack visited result := by
  intro fuel
  induction fuel with
  | zero => intro stack visited result a ha; exact ha
  | succ n ih =>
    intro stack visited result
    cases stack with
    | nil => intro a ha; exact ha
    | cons top rest =>
      obtain ⟨cid, cd⟩ := top
      intro a ha
      by_cases hguard : cd > depth ∨ cid ∈ visited
      · show a ∈ find_related_aux g depth (n + 1) ((cid, cd) :: rest) visited result
        simp only [find_related_aux]
        rw [if_pos hguard]
        exact ih rest visited result ha
      · show a ∈ find_related_aux g depth (n + 1) ((cid, cd) :: rest) visited result
        simp only [find_related_aux]
        rw [if_neg hguard]
        cases h : getA g.nodes cid with
        | none =>
          simp only [h]
          exact ih rest (cid :: visited) result ha
        | some nd =>
          simp only [h]
          by_cases hlt : cd < depth
          · rw [if_pos hlt]
            exact ih _ _ _ (subset_insertIfAbsent result cid ha)
          · rw [if_neg hlt]
            exact ih _ _ _ (subset_insertIfAbsent result cid ha)

/-- C3 (amended): the depth-0 result is always contained in the result
at any depth — the start node, when present, is popped first and
inserted before any pruning can occur.  (Full monotonicity between
consecutive depths fails; see the counterexample.) -/
theorem find_related_contains_depth_zero (g : CodeGraph) (node_id : String)
    (k : Nat) :
    g.find_related_nodes node_id 0 ⊆ g.find_related_nodes node_id k := by
  intro x hx
  rw [find_related_zero_eq] at hx
  cases h : g.get_node node_id with
  | none => rw [h] at hx; simp at hx
  | some nd =>
    rw [h] at hx
    rw [show x = node_id from by simpa using hx]
    by_cases hk : 0 < k
    · show node_id ∈ find_related_aux g k (g.edgeSizes + 1) [(node_id, 0)] [] []
      simp only [find_related_aux]
      rw [if_neg (by simp)]
      have hg : getA g.nodes node_id = some nd := h
      simp only [hg]
      rw [if_pos hk]
      refine find_related_aux_result_subset g k _ _ _ _ ?_
      simp [insertIfAbsent]
    · have hk0 : k = 0 := Nat.eq_zero_of_not_pos hk
      subst hk0
      rw [find_related_zero_eq, h]
      simp

/-- A Function node used by the traversal examples. -/
def fnNode (i : String) : CodeNode :=
  { id := i, node_type := NodeType.Function, name := "fun_" ++ i,
    file_path := "g.rs", line_range := (1, 1), content := "", summary := none,
    metadata := [] }

def callEdge (f t : String) : Relationship :=
  ⟨RelationshipType.Calls, f, t, []⟩

/-- Five nodes with edges A→X, A→B, B→C, C→X, X→Y: exploring depth 3,
the traversal reaches X first along the deep path A,B,C,X at depth 3,
marks it visited without expanding it, and never discovers Y; at depth
2 it reaches X along the direct edge at depth 1 and finds Y. -/
def deepGraph : CodeGraph :=
  (((((((((CodeGraph.new.add_node (fnNode "A")).add_node
    (fnNode "B")).add_node (fnNode "C")).add_node (fnNode "X")).add_node
    (fnNode "Y")).add_relationship (callEdge "A" "X")).add_relationship
    (callEdge "A" "B")).add_relationship (callEdge "B" "C")).add_relationship
    (callEdge "C" "X")).add_relationship (callEdge "X" "Y")

/-- C3 counterexample: `find_related_nodes` is not monotone in the
depth bound.  On `deepGraph`, node Y is in the depth-2 result but not
in the depth-3 result, so `find_related(id, 3)` is not a superset of
`find_related(id, 2)`. -/
theorem find_related_monotonicity_cex :
    "Y" ∈ deepGraph.find_related_nodes "A" 2 ∧
    "Y" ∉ deepGraph.find_related_nodes "A" 3 := by
  decide

theorem find_related_contains_depth_zero_witness :
    deepGraph.find_related_nodes "A" 0 ⊆ deepGraph.find_related_nodes "A" 3 :=
  find_related_contains_depth_zero deepGraph "A" 3

/-- C7: at depth 0 the traversal returns exactly the singleton start
node when it is present in the store, and the empty set when absent. -/
theorem find_related_depth_zero (g : CodeGraph) (node_id : String) :
    g.find_related_nodes node_id 0
      = if (g.get_node node_id).isSome then [node_id] else [] :=
  find_related_zero_eq g node_id

/-- The `(id, name, node_type)` triple pushed into the per-file
grouping of `identify_relationships`. -/
abbrev NodeInfo := String × String × NodeType

/-- The two methods of the `LanguageExtractor` trait that the
relationship-inference phases consume, as an oracle record.  The
phases are specified relative to arbitrary extractor results. -/
structure Extractor where
  extract_function_calls : String → Nat × Nat → String → List String
  extract_imported_modules : String → List String

/-- `matches!(node_type, NodeType::Function | NodeType::Method)`. -/
def isFunctionType : NodeType → Bool
  | NodeType.Function => true
  | NodeType.Method => true
  | _ => false

/-- `matches!(node_type, NodeType::Class | NodeType::Interface)`. -/
def isClassType : NodeType → Bool
  | NodeType.Class => true
  | NodeType.Interface => true
  | _ => false

/-- `matches!(node_type, NodeType::Module | NodeType::Class | NodeType::Interface)`. -/
def isImportTargetType : NodeType → Bool
  | NodeType.Module => true
  | NodeType.Class => true
  | NodeType.Interface => true
  | _ => false

/-- The name→ids function map of `find_function_call_relationships`,
looked up at one called name: ids of all Function/Method nodes of the
whole graph whose name has at least 3 bytes and equals the called
name, in `all_nodes` order. -/
def function_map_get (g : CodeGraph) (called : String) : List String :=
  ((g.all_nodes.filter fun n =>
      isFunctionType n.node_type && decide (3 ≤ n.name.utf8ByteSize)
        && decide (n.name = called))).map CodeNode.id

/-- `find_function_call_relationships` in `src/indexing/analyzer.rs`:
for each Function/Method node of the file, ask the extractor for the
names called within its line range, drop called names shorter than 3
bytes, and emit a `Calls` edge to every same-named Function/Method
node in the whole graph except the node itself. -/
def find_function_call_relationships (ext? : Option Extractor)
    (content : String) (nodes : List NodeInfo) (g : CodeGraph) :
    List Relationship :=
  if (nodes.filter fun t => isFunctionType t.2.2).isEmpty then []
  else
    match ext? with
    | none => []
    | some ex =>
      (nodes.filter fun t => isFunctionType t.2.2).flatMap fun fi =>
        match g.get_node fi.1 with
        | none => []
        | some func_node =>
          (ex.extract_function_calls content func_node.line_range fi.2.1).flatMap
            fun called =>
              if called.utf8ByteSize < 3 then []
              else
                (function_map_get g called).filterMap fun target_id =>
                  if fi.1 = target_id then none
                  else some ⟨RelationshipType.Calls, fi.1, target_id, []⟩

/-- Rust `Path::file_stem` on the model's `/`-separated paths: the
final component without its extension (`None` for an empty path or a
`.` / `..` component; a leading-dot-only name keeps its dot). -/
def fileStem (path : String) : Option String :=
  let comps := (path.splitOn "/").filter fun c => c != ""
  match comps.getLast? with
  | none => none
  | some c =>
    if c = "." ∨ c = ".." then none
    else
      let parts := c.splitOn "."
      match parts with
      | [] => some c
      | [_] => some c
      | "" :: [_] => some c
      | _ => some (String.intercalate "." parts.dropLast)

/-- The match condition of the import-target scan: a Module, Class or
Interface node, not among the current file's recorded nodes, whose
name or file stem equals the imported module name. -/
def importTargetMatches (current_file_nodes : List String)
    (module_name : String) (n : CodeNode) : Bool :=
  isImportTargetType n.node_type && !(decide (n.id ∈ current_file_nodes))
    && (decide (n.name = module_name)
      || decide (fileStem n.file_path = some module_name))

/-- The `for node in graph.all_nodes()` loop body of
`find_import_relationships` for one imported name, with its `break`:
on the first matching node, emit an `Imports` edge from every node of
the file and stop. -/
def scanImportTargets (sources : List NodeInfo) (current : List String)
    (module_name : String) : List CodeNode → List Relationship
  | [] => []
  | n :: rest =>
    if importTargetMatches current module_name n then
      sources.map fun s => ⟨RelationshipType.Imports, s.1, n.id, []⟩
    else scanImportTargets sources current module_name rest

/-- `find_import_relationships` in `src/indexing/analyzer.rs`. -/
def find_import_relationships (ext? : Option Extractor)
    (_file_path : String) (content : String) (nodes : List NodeInfo)
    (g : CodeGraph) : List Relationship :=
  match ext? with
  | none => []
  | some ex =>
    if (ex.extract_imported_modules content).isEmpty then []
    else
      (ex.extract_imported_modules content).flatMap fun module_name =>
        scanImportTargets nodes (nodes.map fun t => t.1) module_name
          g.all_nodes

/-- The Class/Interface nodes of one file's grouping, resolved through
the store, as collected by `find_hierarchical_relationships`. -/
def classesOf (nodes : List NodeInfo) (g : CodeGraph) : List CodeNode :=
  (nodes.filter fun t => isClassType t.2.2).filterMap fun t => g.get_node t.1

/-- Stable insertion into a list sorted by start line (an element is
placed before the first element whose start line is not smaller). -/
def insertByStart (x : CodeNode) : List CodeNode → List CodeNode
  | [] => [x]
  | y :: ys =>
    if y.line_range.1 < x.line_range.1 then y :: insertByStart x ys
    else x :: y :: ys

/-- `sort_by_key(|node| node.line_range.0)` (a stable sort; the emitted
edge set below is invariant under the permutation). -/
def sortByStart (l : List CodeNode) : List CodeNode :=
  l.foldr insertByStart []

/-- `find_hierarchical_relationships` in `src/indexing/analyzer.rs`:
among the file's Class/Interface nodes (at least two), for every
ordered pair at distinct indices with the inner range strictly inside
the outer range, emit a `Contains` edge outer→inner. -/
def find_hierarchical_relationships (nodes : List NodeInfo)
    (g : CodeGraph) : List Relationship :=
  if (classesOf nodes g).length ≤ 1 then []
  else
    (sortByStart (classesOf nodes g)).enum.flatMap fun oi =>
      (sortByStart (classesOf nodes g)).enum.filterMap fun ij =>
        if oi.1 = ij.1 then none
        else
          if ij.2.line_range.1 > oi.2.line_range.1
              ∧ ij.2.line_range.2 < oi.2.line_range.2 then
            some ⟨RelationshipType.Contains, oi.2.id, ij.2.id, []⟩
          else none

/-- `find_method_class_relationships` in `src/indexing/analyzer.rs`:
for every Method node with `parent_class` metadata, emit a `Contains`
edge from every same-named Class/Interface node to the method. -/
def find_method_class_relationships (g : CodeGraph) : List Relationship :=
  g.all_nodes.flatMap fun node =>
    if node.node_type = NodeType.Method then
      match getA node.metadata "parent_class" with
      | some parent_class =>
        (g.find_nodes_by_name parent_class).filterMap fun class_node =>
          if class_node.node_type = NodeType.Class
              ∨ class_node.node_type = NodeType.Interface then
            some ⟨RelationshipType.Contains, class_node.id, node.id, []⟩
          else none
      | none => []
    else []

/-- The per-file grouping of `identify_relationships`: nodes whose
name is shorter than 3 bytes are skipped; the rest are pushed into
their file's bucket. -/
def groupByFile (g : CodeGraph) : List (String × List NodeInfo) :=
  g.all_nodes.foldl
    (fun acc node =>
      if node.name.utf8ByteSize < 3 then acc
      else
        entryModify node.file_path []
          (fun b => b ++ [(node.id, node.name, node.node_type)]) acc)
    []

/-- The candidate-edge list `relationships_to_add` that
`identify_relationships` collects before deduplication: per file, the
call, import and hierarchical phases (run only when the file can be
read and its language detected), then the method-class phase. -/
def inferCandidates (readFile : String → Option String)
    (detectLanguage : String → Option String)
    (getExtractor : String → Option Extractor) (g : CodeGraph) :
    List Relationship :=
  ((groupByFile g).flatMap fun fpns =>
    if fpns.2.isEmpty then []
    else
      match readFile fpns.1 with
      | none => []
      | some content =>
        match detectLanguage fpns.1 with
        | none => []
        | some language =>
          find_function_call_relationships (getExtractor language) content
              fpns.2 g
            ++ find_import_relationships (getExtractor language) fpns.1
              content fpns.2 g
            ++ find_hierarchical_relationships fpns.2 g)
    ++ find_method_class_relationships g

/-- The dedup key `(from_id, to_id, relationship_type)`. -/
def relKey (r : Relationship) : String × String × RelationshipType :=
  (r.from_id, r.to_id, r.relationship_type)

/-- The final loop of `identify_relationships`: insert each candidate
whose key is not already in the `added_rels` set, then record the key. -/
def dedupInsertAux (g : CodeGraph)
    (seen : List (String × String × RelationshipType)) :
    List Relationship → CodeGraph
  | [] => g
  | r :: rest =>
    if relKey r ∈ seen then dedupInsertAux g seen rest
    else dedupInsertAux (g.add_relationship r) (seen ++ [relKey r]) rest

def dedupInsert (g : CodeGraph) (rels : List Relationship) : CodeGraph :=
  dedupInsertAux g [] rels

/-- `identify_relationships` in `src/indexing/analyzer.rs`, relative
to the file-reading, language-detection and extractor oracles. -/
def identify_relationships (readFile : String → Option String)
    (detectLanguage : String → Option String)
    (getExtractor : String → Option Extractor) (g : CodeGraph) : CodeGraph :=
  dedupInsert g (inferCandidates readFile detectLanguage getExtractor g)

/-- C5: the call-resolution phase never emits a self-edge — every
`Calls` relationship it produces has distinct endpoints, because the
candidate fan-out explicitly skips the calling node's own id. -/
theorem find_function_calls_no_self_edges (ext? : Option Extractor)
    (content : String) (nodes : List NodeInfo) (g : CodeGraph) :
    ∀ r ∈ find_function_call_relationships ext? content nodes g,
      r.from_id ≠ r.to_id := by
  intro r hr
  unfold find_function_call_relationships at hr
  split at hr
  · simp at hr
  · split at hr
    · simp at hr
    · obtain ⟨fi, hfi, hr⟩ := List.mem_flatMap.mp hr
      split at hr
      · simp at hr
      · obtain ⟨called, hcalled, hr⟩ := List.mem_flatMap.mp hr
        split at hr
        · simp at hr
        · obtain ⟨tid, htid, hmk⟩ := List.mem_filterMap.mp hr
          by_cases hft : fi.1 = tid
          · simp [hft] at hmk
          · rw [if_neg hft] at hmk
            injection hmk with hmk
            subst hmk
            exact hft

/-- Concrete nodes for the call-resolution example: two functions in
one file, `alpha` textually calling `beta`. -/
def callNodeA : CodeNode :=
  { id := "f1", node_type := NodeType.Function, name := "alpha",
    file_path := "a.rs", line_range := (1, 5), content := "", summary := none,
    metadata := [] }

def callNodeB : CodeNode :=
  { id := "f2", node_type := NodeType.Function, name := "beta",
    file_path := "a.rs", line_range := (6, 9), content := "", summary := none,
    metadata := [] }

def callGraph : CodeGraph :=
  (CodeGraph.new.add_node callNodeA).add_node callNodeB

def callExtractor : Extractor :=
  ⟨fun _ _ _ => ["beta"], fun _ => []⟩

theorem find_function_calls_no_self_edges_witness :
    (⟨RelationshipType.Calls, "f1", "f2", []⟩ : Relationship).from_id
      ≠ (⟨RelationshipType.Calls, "f1", "f2", []⟩ : Relationship).to_id :=
  find_function_calls_no_self_edges (some callExtractor) ""
    [("f1", "alpha", NodeType.Function), ("f2", "beta", NodeType.Function)]
    callGraph ⟨RelationshipType.Calls, "f1", "f2", []⟩ (by decide)

/-- The import-resolution policy in the spec's words: for each imported
name, the first codebase-wide Module/Class/Interface node (skipping the
file's own recorded nodes) whose name or file stem equals the import
receives an `Imports` edge from every node recorded for the importing
file, and the scan stops there — exactly one target per import, never
all matches. -/
def importResolutionSpec (ex : Extractor) (content : String)
    (nodes : List NodeInfo) (g : CodeGraph) : List Relationship :=
  (ex.extract_imported_modules content).flatMap fun module_name =>
    match g.all_nodes.find?
        (importTargetMatches (nodes.map fun t => t.1) module_name) with
    | some target =>
      nodes.map fun s => ⟨RelationshipType.Imports, s.1, target.id, []⟩
    | none => []

theorem scanImportTargets_eq_find (sources : List NodeInfo)
    (current : List String) (module_name : String) (ns : List CodeNode) :
    scanImportTargets sources current module_name ns
      = match ns.find? (importTargetMatches current module_name) with
        | some target =>
          sources.map fun s => ⟨RelationshipType.Imports, s.1, target.id, []⟩
        | none => [] := by
  induction ns with
  | nil => rfl
  | cons n rest ih =>
    by_cases h : importTargetMatches current module_name n
    · simp [scanImportTargets, List.find?_cons_of_pos, h]
    · have hb : importTargetMatches current module_name n = false := by
        simpa using h
      simp [scanImportTargets, List.find?_cons_of_neg, hb, ih]

/-- C4: when an extractor is available, `find_import_relationships`
computes exactly the first-match-wins policy of `importResolutionSpec`:
per imported name, one `Imports` edge from every recorded node of the
file to the single first matching target, and nothing on no match. -/
theorem find_import_first_match (ex : Extractor) (file_path content : String)
    (nodes : List NodeInfo) (g : CodeGraph) :
    find_import_relationships (some ex) file_path content nodes g
      = importResolutionSpec ex content nodes g := by
  simp only [find_import_relationships, importResolutionSpec]
  by_cases hemp : (ex.extract_imported_modules content).isEmpty
  · rw [if_pos hemp]
    rw [List.isEmpty_iff.mp hemp]
    rfl
  · rw [if_neg hemp]
    simp only [scanImportTargets_eq_find]

theorem insertByStart_perm (x : CodeNode) (l : List CodeNode) :
    (insertByStart x l).Perm (x :: l) := by
  induction l with
  | nil => exact List.Perm.refl _
  | cons y ys ih =>
    unfold insertByStart
    split
    · exact (ih.cons y).trans (List.Perm.swap x y ys)
    · exact List.Perm.refl _

theorem sortByStart_perm (l : List CodeNode) : (sortByStart l).Perm l := by
  induction l with
  | nil => exact List.Perm.refl _
  | cons x xs ih =>
    show (insertByStart x (sortByStart xs)).Perm (x :: xs)
    exact (insertByStart_perm x (sortByStart xs)).trans (ih.cons x)

theorem two_mem_two_le_length {α : Type} {l : List α} {a b : α}
    (ha : a ∈ l) (hb : b ∈ l) (hab : a ≠ b) : 2 ≤ l.length := by
  match l with
  | [] => simp at ha
  | [x] =>
    simp at ha hb
    exact absurd (ha.trans hb.symm) hab
  | x :: y :: t => simp [List.length]

/-- C2: within one file's grouping, for distinct Class/Interface nodes
A and B (resolved through the store, with pairwise distinct ids), the
hierarchical phase emits Contains(A, B) exactly when B's line range is
strictly inside A's — on both ends, so boundary-equal ranges produce
no edge. -/
theorem hierarchical_contains_iff (nodes : List NodeInfo) (g : CodeGraph)
    (hnd : ((classesOf nodes g).map CodeNode.id).Nodup)
    (A B : CodeNode) (hA : A ∈ classesOf nodes g)
    (hB : B ∈ classesOf nodes g) (hAB : A.id ≠ B.id) :
    (⟨RelationshipType.Contains, A.id, B.id, []⟩ : Relationship)
        ∈ find_hierarchical_relationships nodes g
      ↔ (B.line_range.1 > A.line_range.1
          ∧ B.line_range.2 < A.line_range.2) := by
  have hABne : A ≠ B := fun h => hAB (h ▸ rfl)
  have hlen : ¬ (classesOf nodes g).length ≤ 1 := by
    have := two_mem_two_le_length hA hB hABne
    omega
  have hperm := sortByStart_perm (classesOf nodes g)
  have hnds : ((sortByStart (classesOf nodes g)).map CodeNode.id).Nodup :=
    (hperm.map CodeNode.id).nodup_iff.mpr hnd
  unfold find_hierarchical_relationships
  rw [if_neg hlen]
  constructor
  · intro hmem
    obtain ⟨oi, hoi, hmem⟩ := List.mem_flatMap.mp hmem
    obtain ⟨ij, hij, hmk⟩ := List.mem_filterMap.mp hmem
    by_cases hidx : oi.1 = ij.1
    · simp [hidx] at hmk
    · rw [if_neg hidx] at hmk
      by_cases hcond : ij.2.line_range.1 > oi.2.line_range.1
          ∧ ij.2.line_range.2 < oi.2.line_range.2
      · rw [if_pos hcond] at hmk
        injection hmk with hmk
        have hfrom : oi.2.id = A.id := by
          have := congrArg Relationship.from_id hmk; simpa using this
        have hto : ij.2.id = B.id := by
          have := congrArg Relationship.to_id hmk; simpa using this
        have hoimem : oi.2 ∈ sortByStart (classesOf nodes g) :=
          List.mem_iff_get?.mpr ⟨oi.1, List.mem_enum_iff_get?.mp hoi⟩
        have hijmem : ij.2 ∈ sortByStart (classesOf nodes g) :=
          List.mem_iff_get?.mpr ⟨ij.1, List.mem_enum_iff_get?.mp hij⟩
        have hAs : A ∈ sortByStart (classesOf nodes g) :=
          hperm.mem_iff.mpr hA
        have hBs : B ∈ sortByStart (classesOf nodes g) :=
          hperm.mem_iff.mpr hB
        have hoA : oi.2 = A :=
          List.inj_on_of_nodup_map hnds hoimem hAs hfrom
        have hiB : ij.2 = B :=
          List.inj_on_of_nodup_map hnds hijmem hBs hto
        rw [hoA, hiB] at hcond
        exact hcond
      · rw [if_neg hcond] at hmk
        simp at hmk
  · intro hcond
    have hAs : A ∈ sortByStart (classesOf nodes g) := hperm.mem_iff.mpr hA
    have hBs : B ∈ sortByStart (classesOf nodes g) := hperm.mem_iff.mpr hB
    obtain ⟨i, hi⟩ := List.mem_iff_get?.mp hAs
    obtain ⟨j, hj⟩ := List.mem_iff_get?.mp hBs
    have hij : i ≠ j := by
      intro h
      rw [h, hj] at hi
      injection hi with hv
      exact hABne hv.symm
    refine List.mem_flatMap.mpr ⟨(i, A), List.mem_enum_iff_get?.mpr hi, ?_⟩
    refine List.mem_filterMap.mpr ⟨(j, B), List.mem_enum_iff_get?.mpr hj, ?_⟩
    rw [if_neg hij, if_pos hcond]

/-- Concrete nodes for the nesting example: class Outer spans lines
1-20 and class Inner spans lines 5-10 in the same file. -/
def outerNode : CodeNode :=
  { id := "c1", node_type := NodeType.Class, name := "Outer",
    file_path := "h.rs", line_range := (1, 20), content := "", summary := none,
    metadata := [] }

def innerNode : CodeNode :=
  { id := "c2", node_type := NodeType.Class, name := "Inner",
    file_path := "h.rs", line_range := (5, 10), content := "", summary := none,
    metadata := [] }

def hierGraph : CodeGraph :=
  (CodeGraph.new.add_node outerNode).add_node innerNode

def hierNodes : List NodeInfo :=
  [("c1", "Outer", NodeType.Class), ("c2", "Inner", NodeType.Class)]

theorem hierarchical_contains_iff_witness :
    (⟨RelationshipType.Contains, "c1", "c2", []⟩ : Relationship)
      ∈ find_hierarchical_relationships hierNodes hierGraph :=
  (hierarchical_contains_iff hierNodes hierGraph (by decide) outerNode
    innerNode (by decide) (by decide) (by decide)).mpr (by decide)

/-- Number of stored edges carrying a given `(from, to, kind)` key,
summed over the outgoing-edge map (the store's directed edge count,
matching `relationship_count`). -/
def countTriple (g : CodeGraph)
    (t : String × String × RelationshipType) : Nat :=
  (g.outgoing_edges.map fun e =>
    (e.2.filter fun x => decide (relKey x = t)).length).sum

theorem sum_entryModify_append (k : String) (r : Relationship)
    (t : String × String × RelationshipType) :
    ∀ l : List (String × List Relationship),
      ((entryModify k [] (fun b => b ++ [r]) l).map fun e =>
          (e.2.filter fun x => decide (relKey x = t)).length).sum
        = ((l.map fun e =>
            (e.2.filter fun x => decide (relKey x = t)).length).sum)
          + (if relKey r = t then 1 else 0) := by
  intro l
  induction l with
  | nil =>
    by_cases h : relKey r = t <;> simp [entryModify, h]
  | cons e rest ih =>
    by_cases hek : e.1 = k
    · simp only [entryModify, if_pos hek, List.map_cons, List.sum_cons,
        List.filter_append, List.length_append]
      by_cases h : relKey r = t <;> simp [h] <;> omega
    · simp only [entryModify, if_neg hek, List.map_cons, List.sum_cons, ih]
      omega

theorem countTriple_add_relationship (g : CodeGraph) (r : Relationship)
    (t : String × String × RelationshipType) :
    countTriple (g.add_relationship r) t
      = countTriple g t + (if relKey r = t then 1 else 0) := by
  unfold countTriple CodeGraph.add_relationship
  exact sum_entryModify_append r.from_id r t g.outgoing_edges

theorem dedupInsertAux_count
    (t : String × String × RelationshipType) :
    ∀ (rels : List Relationship) (g : CodeGraph)
      (seen : List (String × String × RelationshipType)),
      countTriple (dedupInsertAux g seen rels) t
        = countTriple g t
          + (if t ∉ seen ∧ t ∈ rels.map relKey then 1 else 0) := by
  intro rels
  induction rels with
  | nil => intro g seen; simp [dedupInsertAux]
  | cons r rest ih =>
    intro g seen
    unfold dedupInsertAux
    by_cases hk : relKey r ∈ seen
    · rw [if_pos hk, ih]
      have hiff : (t ∉ seen ∧ t ∈ (r :: rest).map relKey)
          ↔ (t ∉ seen ∧ t ∈ rest.map relKey) := by
        constructor
        · rintro ⟨h1, h2⟩
          refine ⟨h1, ?_⟩
          rw [List.map_cons] at h2
          rcases List.mem_cons.mp h2 with h3 | h3
          · exact absurd (h3 ▸ hk) h1
          · exact h3
        · rintro ⟨h1, h2⟩
          exact ⟨h1, by rw [List.map_cons]; exact List.mem_cons_of_mem _ h2⟩
      rw [if_congr hiff rfl rfl]
    · rw [if_neg hk, ih, countTriple_add_relationship]
      have hseen : ∀ x : String × String × RelationshipType,
          x ∈ seen ++ [relKey r] ↔ (x ∈ seen ∨ x = relKey r) := by
        intro x
        simp [List.mem_append]
      by_cases htr : relKey r = t
      · have h1 : ¬ (t ∉ seen ++ [relKey r] ∧ t ∈ rest.map relKey) := by
          rintro ⟨h1, _⟩
          exact h1 ((hseen t).mpr (Or.inr htr.symm))
        have h2 : t ∉ seen ∧ t ∈ (r :: rest).map relKey := by
          refine ⟨htr ▸ hk, ?_⟩
          rw [List.map_cons, htr]
          exact List.mem_cons_self _ _
        rw [if_neg h1, if_pos h2, if_pos htr]
      · have htr' : ¬ t = relKey r := fun h => htr h.symm
        have hiff2 : (t ∉ seen ++ [relKey r] ∧ t ∈ rest.map relKey)
            ↔ (t ∉ seen ∧ t ∈ (r :: rest).map relKey) := by
          constructor
          · rintro ⟨h1, h2⟩
            refine ⟨fun hx => h1 ((hseen t).mpr (Or.inl hx)), ?_⟩
            rw [List.map_cons]
            exact List.mem_cons_of_mem _ h2
          · rintro ⟨h1, h2⟩
            refine ⟨fun hx => ?_, ?_⟩
            · rcases (hseen t).mp hx with h3 | h3
              · exact h1 h3
              · exact htr' h3
            · rw [List.map_cons] at h2
              rcases List.mem_cons.mp h2 with h3 | h3
              · exact absurd h3 htr'
              · exact h3
        rw [if_neg htr, if_congr hiff2 rfl rfl]
        omega

/-- C6: at the end of `identify_relationships`, each `(from, to, kind)`
key occurring among the collected candidates — no matter how many
times it was collected — accounts for exactly one newly inserted edge
with that key. -/
theorem identify_relationships_dedup (readFile : String → Option String)
    (detectLanguage : String → Option String)
    (getExtractor : String → Option Extractor) (g : CodeGraph)
    (t : String × String × RelationshipType) :
    countTriple (identify_relationships readFile detectLanguage getExtractor g) t
      = countTriple g t
        + (if t ∈ (inferCandidates readFile detectLanguage getExtractor g).map
              relKey
          then 1 else 0) := by
  unfold identify_relationships dedupInsert
  rw [dedupInsertAux_count]
  simp

theorem entryModify_append_mem {κ γ : Type} [DecidableEq κ] (k : κ) (x : γ) :
    ∀ (l : List (κ × List γ)) (k' : κ) (b' : List γ),
      (k', b') ∈ entryModify k [] (fun b => b ++ [x]) l →
      ∀ y ∈ b', (∃ b, (k', b) ∈ l ∧ y ∈ b) ∨ y = x := by
  intro l
  induction l with
  | nil =>
    intro k' b' hmem y hy
    simp [entryModify] at hmem
    rw [hmem.2] at hy
    right
    simpa using hy
  | cons e rest ih =>
    intro k' b' hmem y hy
    by_cases hek : e.1 = k
    · simp only [entryModify, if_pos hek] at hmem
      rcases List.mem_cons.mp hmem with h | h
      · have h1 : k' = e.1 := congrArg Prod.fst h
        have h2 : b' = e.2 ++ [x] := congrArg Prod.snd h
        rw [h2] at hy
        rcases List.mem_append.mp hy with hy1 | hy2
        · left
          exact ⟨e.2, by rw [h1]; exact List.mem_cons_self e rest, hy1⟩
        · right
          simpa using hy2
      · left
        exact ⟨b', List.mem_cons_of_mem _ h, hy⟩
    · simp only [entryModify, if_neg hek] at hmem
      rcases List.mem_cons.mp hmem with h | h
      · left
        exact ⟨b', List.mem_cons.mpr (Or.inl h), hy⟩
      · rcases ih k' b' h y hy with ⟨b, hb, hyb⟩ | hx
        · left
          exact ⟨b, List.mem_cons_of_mem _ hb, hyb⟩
        · right
          exact hx

theorem groupByFile_foldl_prop (Q : NodeInfo → Prop) :
    ∀ (L : List CodeNode) (acc : List (String × List NodeInfo)),
      (∀ fp ns, (fp, ns) ∈ acc → ∀ info ∈ ns, Q info) →
      (∀ m ∈ L, ¬ m.name.utf8ByteSize < 3 → Q (m.id, m.name, m.node_type)) →
      ∀ fp ns,
        (fp, ns) ∈ L.foldl
          (fun acc node =>
            if node.name.utf8ByteSize < 3 then acc
            else entryModify node.file_path []
              (fun b => b ++ [(node.id, node.name, node.node_type)]) acc)
          acc →
        ∀ info ∈ ns, Q info := by
  intro L
  induction L with
  | nil =>
    intro acc hacc _ fp ns hm info hinfo
    exact hacc fp ns hm info hinfo
  | cons m L ih =>
    intro acc hacc hL fp ns hm info hinfo
    simp only [List.foldl_cons] at hm
    by_cases hshort : m.name.utf8ByteSize < 3
    · rw [if_pos hshort] at hm
      exact ih acc hacc (fun x hx => hL x (List.mem_cons_of_mem _ hx))
        fp ns hm info hinfo
    · rw [if_neg hshort] at hm
      refine ih _ ?_ (fun x hx => hL x (List.mem_cons_of_mem _ hx))
        fp ns hm info hinfo
      intro fp' ns' hmem' info' hinfo'
      rcases entryModify_append_mem m.file_path (m.id, m.name, m.node_type)
          acc fp' ns' hmem' info' hinfo' with ⟨b, hb, hib⟩ | hx
      · exact hacc fp' b hb info' hib
      · rw [hx]
        exact hL m (List.mem_cons_self _ _) hshort

theorem groupByFile_sources (g : CodeGraph) :
    ∀ fp ns, (fp, ns) ∈ groupByFile g →
      ∀ info ∈ ns,
        ∃ m ∈ g.all_nodes, m.id = info.1 ∧ ¬ m.name.utf8ByteSize < 3 := by
  intro fp ns hm info hinfo
  refine groupByFile_foldl_prop
    (fun info =>
      ∃ m ∈ g.all_nodes, m.id = info.1 ∧ ¬ m.name.utf8ByteSize < 3)
    g.all_nodes [] (by simp) ?_ fp ns hm info hinfo
  intro m hmm hlong
  exact ⟨m, hmm, rfl, hlong⟩

theorem all_nodes_id_nodup (g : CodeGraph) (hWF : WFNodes g) :
    (g.all_nodes.map CodeNode.id).Nodup := by
  have key : ∀ l : List (String × CodeNode), (∀ e ∈ l, e.2.id = e.1) →
      (l.map Prod.snd).map CodeNode.id = l.map Prod.fst := by
    intro l h
    induction l with
    | nil => rfl
    | cons e rest ih =>
      simp only [List.map_cons]
      rw [h e (List.mem_cons_self e rest),
        ih (fun x hx => h x (List.mem_cons_of_mem _ hx))]
  show ((g.nodes.map Prod.snd).map CodeNode.id).Nodup
  rw [key g.nodes hWF.1]
  exact hWF.2

theorem calls_phase_shape (ext? : Option Extractor) (content : String)
    (ns : List NodeInfo) (g : CodeGraph) :
    ∀ r ∈ find_function_call_relationships ext? content ns g,
      r.relationship_type = RelationshipType.Calls
        ∧ ∃ info ∈ ns, r.from_id = info.1 := by
  intro r hr
  unfold find_function_call_relationships at hr
  split at hr
  · simp at hr
  · split at hr
    · simp at hr
    · obtain ⟨fi, hfi, hr⟩ := List.mem_flatMap.mp hr
      split at hr
      · simp at hr
      · obtain ⟨called, _, hr⟩ := List.mem_flatMap.mp hr
        split at hr
        · simp at hr
        · obtain ⟨tid, _, hmk⟩ := List.mem_filterMap.mp hr
          by_cases hft : fi.1 = tid
          · simp [hft] at hmk
          · rw [if_neg hft] at hmk
            injection hmk with hmk
            subst hmk
            exact ⟨rfl, fi, List.mem_of_mem_filter hfi, rfl⟩

theorem imports_phase_shape (ext? : Option Extractor)
    (file_path content : String) (ns : List NodeInfo) (g : CodeGraph) :
    ∀ r ∈ find_import_relationships ext? file_path content ns g,
      r.relationship_type = RelationshipType.Imports
        ∧ ∃ info ∈ ns, r.from_id = info.1 := by
  intro r hr
  unfold find_import_relationships at hr
  split at hr
  · simp at hr
  · split at hr
    · simp at hr
    · obtain ⟨m, _, hr⟩ := List.mem_flatMap.mp hr
      rw [scanImportTargets_eq_find] at hr
      split at hr
      · obtain ⟨s, hs, hmk⟩ := List.mem_map.mp hr
        rw [← hmk]
        exact ⟨rfl, s, hs, rfl⟩
      · simp at hr

theorem hier_phase_shape (ns : List NodeInfo) (g : CodeGraph) :
    ∀ r ∈ find_hierarchical_relationships ns g,
      r.relationship_type = RelationshipType.Contains
        ∧ (∃ c ∈ classesOf ns g, r.from_id = c.id)
        ∧ (∃ c ∈ classesOf ns g, r.to_id = c.id) := by
  intro r hr
  unfold find_hierarchical_relationships at hr
  split at hr
  · simp at hr
  · obtain ⟨oi, hoi, hr⟩ := List.mem_flatMap.mp hr
    obtain ⟨ij, hij, hmk⟩ := List.mem_filterMap.mp hr
    by_cases h1 : oi.1 = ij.1
    · simp [h1] at hmk
    · rw [if_neg h1] at hmk
      by_cases h2 : ij.2.line_range.1 > oi.2.line_range.1
          ∧ ij.2.line_range.2 < oi.2.line_range.2
      · rw [if_pos h2] at hmk
        injection hmk with hmk
        subst hmk
        have hoimem : oi.2 ∈ sortByStart (classesOf ns g) :=
          List.mem_iff_get?.mpr ⟨oi.1, List.mem_enum_iff_get?.mp hoi⟩
        have hijmem : ij.2 ∈ sortByStart (classesOf ns g) :=
          List.mem_iff_get?.mpr ⟨ij.1, List.mem_enum_iff_get?.mp hij⟩
        exact ⟨rfl,
          ⟨oi.2, (sortByStart_perm _).mem_iff.mp hoimem, rfl⟩,
          ⟨ij.2, (sortByStart_perm _).mem_iff.mp hijmem, rfl⟩⟩
      · rw [if_neg h2] at hmk
        simp at hmk

theorem method_class_phase_shape (g : CodeGraph) :
    ∀ r ∈ find_method_class_relationships g,
      r.relationship_type = RelationshipType.Contains := by
  intro r hr
  unfold find_method_class_relationships at hr
  obtain ⟨node, _, hr⟩ := List.mem_flatMap.mp hr
  split at hr
  · split at hr
    · obtain ⟨c, _, hmk⟩ := List.mem_filterMap.mp hr
      split at hmk
      · injection hmk with hmk
        subst hmk
        rfl
      · simp at hmk
    · simp at hr
  · simp at hr

/-- C9 (amended): a node whose name is shorter than 3 bytes is excluded
from the per-file grouping, so it is never a call source, never an
Imports-edge source of its file, and never an endpoint of a
hierarchical Contains edge.  (It can, however, still receive an
Imports edge as a target: the target scan runs over all nodes without
the length filter — see the counterexample.) -/
theorem short_names_excluded_from_sources
    (readFile : String → Option String)
    (detectLanguage : String → Option String)
    (getExtractor : String → Option Extractor) (g : CodeGraph)
    (hWF : WFNodes g) (n : CodeNode) (hn : n ∈ g.all_nodes)
    (hshort : n.name.utf8ByteSize < 3) :
    (∀ r ∈ inferCandidates readFile detectLanguage getExtractor g,
        (r.relationship_type = RelationshipType.Calls → r.from_id ≠ n.id)
        ∧ (r.relationship_type = RelationshipType.Imports → r.from_id ≠ n.id))
    ∧ (∀ fp ns, (fp, ns) ∈ groupByFile g →
        ∀ r ∈ find_hierarchical_relationships ns g,
          r.from_id ≠ n.id ∧ r.to_id ≠ n.id) := by
  have hkey : ∀ fp ns, (fp, ns) ∈ groupByFile g →
      ∀ info ∈ ns, info.1 ≠ n.id := by
    intro fp ns hm info hinfo heq
    obtain ⟨m, hmmem, hmid, hmlong⟩ := groupByFile_sources g fp ns hm info hinfo
    have hmn : m = n :=
      List.inj_on_of_nodup_map (all_nodes_id_nodup g hWF) hmmem hn
        (hmid.trans heq)
    exact hmlong (by rw [hmn]; exact hshort)
  have hcls : ∀ fp ns, (fp, ns) ∈ groupByFile g →
      ∀ c ∈ classesOf ns g, c.id ≠ n.id := by
    intro fp ns hm c hc
    unfold classesOf at hc
    obtain ⟨info, hinfo, hcg⟩ := List.mem_filterMap.mp hc
    have hinfo' : info ∈ ns := List.mem_of_mem_filter hinfo
    have hcid : c.id = info.1 := hWF.1 (info.1, c) (getA_some_mem hcg)
    rw [hcid]
    exact hkey fp ns hm info hinfo'
  constructor
  · intro r hr
    unfold inferCandidates at hr
    constructor
    · intro hCalls heq
      rcases List.mem_append.mp hr with hmain | hmc
      · obtain ⟨fpns, hfpns, hr2⟩ := List.mem_flatMap.mp hmain
        split at hr2
        · simp at hr2
        · split at hr2
          · simp at hr2
          · split at hr2
            · simp at hr2
            · rcases List.mem_append.mp hr2 with hr12 | hr5
              · rcases List.mem_append.mp hr12 with hr3 | hr4
                · obtain ⟨_, info, hinfo, hfrom⟩ :=
                    calls_phase_shape _ _ fpns.2 g r hr3
                  exact hkey fpns.1 fpns.2 hfpns info hinfo (hfrom ▸ heq)
                · have := (imports_phase_shape _ _ _ fpns.2 g r hr4).1
                  simp [hCalls] at this
              · have := (hier_phase_shape fpns.2 g r hr5).1
                simp [hCalls] at this
      · have := method_class_phase_shape g r hmc
        simp [hCalls] at this
    · intro hImp heq
      rcases List.mem_append.mp hr with hmain | hmc
      · obtain ⟨fpns, hfpns, hr2⟩ := List.mem_flatMap.mp hmain
        split at hr2
        · simp at hr2
        · split at hr2
          · simp at hr2
          · split at hr2
            · simp at hr2
            · rcases List.mem_append.mp hr2 with hr12 | hr5
              · rcases List.mem_append.mp hr12 with hr3 | hr4
                · have := (calls_phase_shape _ _ fpns.2 g r hr3).1
                  simp [hImp] at this
                · obtain ⟨_, info, hinfo, hfrom⟩ :=
                    imports_phase_shape _ _ _ fpns.2 g r hr4
                  exact hkey fpns.1 fpns.2 hfpns info hinfo (hfrom ▸ heq)
              · have := (hier_phase_shape fpns.2 g r hr5).1
                simp [hImp] at this
      · have := method_class_phase_shape g r hmc
        simp [hImp] at this
  · intro fp ns hm r hr
    obtain ⟨_, ⟨cf, hcf, hfrom⟩, ⟨ct, hct, hto⟩⟩ := hier_phase_shape ns g r hr
    constructor
    · rw [hfrom]
      exact hcls fp ns hm cf hcf
    · rw [hto]
      exact hcls fp ns hm ct hct

/-- A long-named Function node in file `a.x` that imports `"ab"`. -/
def srcFnNode : CodeNode :=
  { id := "f1", node_type := NodeType.Function, name := "alpha",
    file_path := "a.x", line_range := (1, 5), content := "", summary := none,
    metadata := [] }

/-- A Module node with the 2-byte name `"ab"` in another file. -/
def shortModNode : CodeNode :=
  { id := "f2", node_type := NodeType.Module, name := "ab",
    file_path := "b.x", line_range := (1, 2), content := "", summary := none,
    metadata := [] }

def impGraph : CodeGraph :=
  (CodeGraph.new.add_node srcFnNode).add_node shortModNode

def cexReadFile : String → Option String :=
  fun fp => if fp = "a.x" then some "import ab" else none

def cexDetect : String → Option String :=
  fun fp => if fp = "a.x" then some "lang" else none

def cexGetExt : String → Option Extractor :=
  fun _ => some ⟨fun _ _ _ => [], fun _ => ["ab"]⟩

/-- C9 counterexample: a node with a name shorter than 3 bytes can
still receive an Imports edge.  The Module node `"ab"` (2 bytes) is
excluded from the per-file grouping, yet the import-target scan runs
over all nodes unfiltered and selects it, so the inference pass emits
an Imports edge pointing at it. -/
theorem short_name_import_target_cex :
    (⟨RelationshipType.Imports, "f1", "f2", []⟩ : Relationship)
        ∈ inferCandidates cexReadFile cexDetect cexGetExt impGraph
    ∧ (impGraph.get_node "f2").map CodeNode.name = some "ab"
    ∧ "ab".utf8ByteSize < 3 := by
  decide

theorem short_names_excluded_from_sources_witness :
    (⟨RelationshipType.Imports, "f1", "f2", []⟩ : Relationship).from_id
      ≠ shortModNode.id :=
  ((short_names_excluded_from_sources cexReadFile cexDetect cexGetExt impGraph
      (by decide) shortModNode (by decide) (by decide)).1
    ⟨RelationshipType.Imports, "f1", "f2", []⟩ (by decide)).2 rfl

/-- One mutation of the store: the two public build operations. -/
inductive GraphOp where
  | addNode (n : CodeNode)
  | addRel (r : Relationship)
deriving DecidableEq

def applyOp (g : CodeGraph) : GraphOp → CodeGraph
  | GraphOp.addNode n => g.add_node n
  | GraphOp.addRel r => g.add_relationship r

/-- A store built by an arbitrary sequence of `add_node` /
`add_relationship` calls starting from `CodeGraph::new`. -/
def buildGraph (ops : List GraphOp) : CodeGraph :=
  ops.foldl applyOp CodeGraph.new

def addNodeIds (ops : List GraphOp) : List String :=
  ops.filterMap fun op =>
    match op with
    | GraphOp.addNode n => some n.id
    | GraphOp.addRel _ => none

/-- Number of buckets of a secondary index that contain a given id. -/
def bucketCount {κ : Type} (idx : List (κ × List String)) (i : String) : Nat :=
  idx.countP fun e => decide (i ∈ e.2)

/-- Number of entries of a map that are keyed by a given id. -/
def countKeys {β : Type} (l : List (String × β)) (i : String) : Nat :=
  l.countP fun e => decide (e.1 = i)

theorem mem_insertIfAbsent_iff (b : List String) (j i : String) :
    i ∈ insertIfAbsent b j ↔ (i ∈ b ∨ i = j) := by
  by_cases h : j ∈ b
  · rw [insertIfAbsent, if_pos h]
    constructor
    · exact Or.inl
    · rintro (hi | rfl)
      · exact hi
      · exact h
  · rw [insertIfAbsent, if_neg h]
    simp [List.mem_append]

theorem bucketCount_entryModify_ne {κ : Type} [DecidableEq κ] (k : κ)
    (j i : String) (hji : j ≠ i) (idx : List (κ × List String)) :
    bucketCount (entryModify k [] (fun b => insertIfAbsent b j) idx) i
      = bucketCount idx i := by
  have hpred : ∀ b : List String,
      decide (i ∈ insertIfAbsent b j) = decide (i ∈ b) := by
    intro b
    have : i ∈ insertIfAbsent b j ↔ i ∈ b := by
      rw [mem_insertIfAbsent_iff]
      constructor
      · rintro (hi | rfl)
        · exact hi
        · exact absurd rfl hji
      · exact Or.inl
    by_cases hb : i ∈ b
    · simp [hb, this.mpr hb]
    · have hni : ¬ i ∈ insertIfAbsent b j := fun h => hb (this.mp h)
      simp [hb, hni]
  induction idx with
  | nil => simp [entryModify, bucketCount, hpred]
  | cons e rest ih =>
    by_cases hek : e.1 = k
    · simp only [entryModify, if_pos hek, bucketCount, List.countP_cons] at ih ⊢
      rw [hpred]
    · simp only [entryModify, if_neg hek, bucketCount, List.countP_cons] at ih ⊢
      rw [ih]

theorem bucketCount_entryModify_self {κ : Type} [DecidableEq κ] (k : κ)
    (i : String) (idx : List (κ × List String))
    (h0 : bucketCount idx i = 0) :
    bucketCount (entryModify k [] (fun b => insertIfAbsent b i) idx) i = 1 := by
  have hins : ∀ b : List String, i ∈ insertIfAbsent b i := by
    intro b
    rw [mem_insertIfAbsent_iff]
    exact Or.inr rfl
  induction idx with
  | nil => simp [entryModify, bucketCount, hins]
  | cons e rest ih =>
    simp only [bucketCount, List.countP_cons] at h0
    have he : decide (i ∈ e.2) = false := by
      by_cases hb : i ∈ e.2
      · simp [hb] at h0
      · simp [hb]
    have hrest : bucketCount rest i = 0 := by
      simp only [he, if_neg] at h0
      simpa [bucketCount] using h0
    by_cases hek : e.1 = k
    · simp only [entryModify, if_pos hek, bucketCount, List.countP_cons]
      simp only [bucketCount] at hrest
      simp [hins, hrest]
    · simp only [entryModify, if_neg hek, bucketCount, List.countP_cons]
      simp only [bucketCount] at ih
      simp [he, ih hrest]

theorem countKeys_entryModify {β : Type} (k i : String) (dflt : β)
    (f : β → β) (adj : List (String × β)) :
    countKeys (entryModify k dflt f adj) i
      = if k = i ∧ countKeys adj k = 0 then countKeys adj i + 1
        else countKeys adj i := by
  induction adj with
  | nil =>
    by_cases hki : k = i <;> simp [entryModify, countKeys, hki]
  | cons e rest ih =>
    by_cases hek : e.1 = k
    · have hcnt : ¬ countKeys (e :: rest) k = 0 := by
        simp [countKeys, List.countP_cons, hek]
      rw [if_neg (fun h => hcnt h.2)]
      simp only [entryModify, if_pos hek, countKeys, List.countP_cons]
    · have h1 : (if decide (e.1 = k) = true then 1 else 0) = 0 := by
        simp [hek]
      simp only [entryModify, if_neg hek, countKeys, List.countP_cons]
      simp only [countKeys] at ih
      rw [ih, h1]
      simp only [Nat.add_zero]
      by_cases hcond : k = i ∧ rest.countP (fun e => decide (e.1 = k)) = 0
      · rw [if_pos hcond, if_pos hcond]
        omega
      · rw [if_neg hcond, if_neg hcond]

theorem index_counts_phaseA (i : String) :
    ∀ (ops : List GraphOp) (g : CodeGraph),
      (∀ m, GraphOp.addNode m ∈ ops → m.id ≠ i) →
      bucketCount g.nodes_by_type i = 0 →
      bucketCount g.nodes_by_file i = 0 →
      bucketCount g.nodes_by_name i = 0 →
      countKeys g.outgoing_edges i ≤ 1 →
      countKeys g.incoming_edges i ≤ 1 →
      bucketCount (List.foldl applyOp g ops).nodes_by_type i = 0
      ∧ bucketCount (List.foldl applyOp g ops).nodes_by_file i = 0
      ∧ bucketCount (List.foldl applyOp g ops).nodes_by_name i = 0
      ∧ countKeys (List.foldl applyOp g ops).outgoing_edges i ≤ 1
      ∧ countKeys (List.foldl applyOp g ops).incoming_edges i ≤ 1 := by
  intro ops
  induction ops with
  | nil =>
    intro g _ h1 h2 h3 h4 h5
    exact ⟨h1, h2, h3, h4, h5⟩
  | cons op rest ih =>
    intro g hno h1 h2 h3 h4 h5
    simp only [List.foldl_cons]
    cases op with
    | addNode m =>
      have hmi : m.id ≠ i := hno m (List.mem_cons_self _ _)
      refine ih (applyOp g (GraphOp.addNode m))
        (fun x hx => hno x (List.mem_cons_of_mem _ hx)) ?_ ?_ ?_ ?_ ?_
      · simp only [applyOp, CodeGraph.add_node]
        rw [bucketCount_entryModify_ne _ _ _ hmi]
        exact h1
      · simp only [applyOp, CodeGraph.add_node]
        rw [bucketCount_entryModify_ne _ _ _ hmi]
        exact h2
      · simp only [applyOp, CodeGraph.add_node]
        rw [bucketCount_entryModify_ne _ _ _ hmi]
        exact h3
      · simp only [applyOp, CodeGraph.add_node]
        rw [countKeys_entryModify, if_neg (fun h => hmi h.1)]
        exact h4
      · simp only [applyOp, CodeGraph.add_node]
        rw [countKeys_entryModify, if_neg (fun h => hmi h.1)]
        exact h5
    | addRel r =>
      refine ih (applyOp g (GraphOp.addRel r))
        (fun x hx => hno x (List.mem_cons_of_mem _ hx)) ?_ ?_ ?_ ?_ ?_
      · exact h1
      · exact h2
      · exact h3
      · simp only [applyOp, CodeGraph.add_relationship]
        rw [countKeys_entryModify]
        by_cases hc : r.from_id = i ∧ countKeys g.outgoing_edges r.from_id = 0
        · rw [if_pos hc]
          have hz : countKeys g.outgoing_edges i = 0 := hc.1 ▸ hc.2
          omega
        · rw [if_neg hc]
          exact h4
      · simp only [applyOp, CodeGraph.add_relationship]
        rw [countKeys_entryModify]
        by_cases hc : r.to_id = i ∧ countKeys g.incoming_edges r.to_id = 0
        · rw [if_pos hc]
          have hz : countKeys g.incoming_edges i = 0 := hc.1 ▸ hc.2
          omega
        · rw [if_neg hc]
          exact h5

theorem index_counts_phaseC (i : String) :
    ∀ (ops : List GraphOp) (g : CodeGraph),
      (∀ m, GraphOp.addNode m ∈ ops → m.id ≠ i) →
      bucketCount g.nodes_by_type i = 1 →
      bucketCount g.nodes_by_file i = 1 →
      bucketCount g.nodes_by_name i = 1 →
      countKeys g.outgoing_edges i = 1 →
      countKeys g.incoming_edges i = 1 →
      bucketCount (List.foldl applyOp g ops).nodes_by_type i = 1
      ∧ bucketCount (List.foldl applyOp g ops).nodes_by_file i = 1
      ∧ bucketCount (List.foldl applyOp g ops).nodes_by_name i = 1
      ∧ countKeys (List.foldl applyOp g ops).outgoing_edges i = 1
      ∧ countKeys (List.foldl applyOp g ops).incoming_edges i = 1 := by
  intro ops
  induction ops with
  | nil =>
    intro g _ h1 h2 h3 h4 h5
    exact ⟨h1, h2, h3, h4, h5⟩
  | cons op rest ih =>
    intro g hno h1 h2 h3 h4 h5
    simp only [List.foldl_cons]
    cases op with
    | addNode m =>
      have hmi : m.id ≠ i := hno m (List.mem_cons_self _ _)
      refine ih (applyOp g (GraphOp.addNode m))
        (fun x hx => hno x (List.mem_cons_of_mem _ hx)) ?_ ?_ ?_ ?_ ?_
      · simp only [applyOp, CodeGraph.add_node]
        rw [bucketCount_entryModify_ne _ _ _ hmi]
        exact h1
      · simp only [applyOp, CodeGraph.add_node]
        rw [bucketCount_entryModify_ne _ _ _ hmi]
        exact h2
      · simp only [applyOp, CodeGraph.add_node]
        rw [bucketCount_entryModify_ne _ _ _ hmi]
        exact h3
      · simp only [applyOp, CodeGraph.add_node]
        rw [countKeys_entryModify, if_neg (fun h => hmi h.1)]
        exact h4
      · simp only [applyOp, CodeGraph.add_node]
        rw [countKeys_entryModify, if_neg (fun h => hmi h.1)]
        exact h5
    | addRel r =>
      refine ih (applyOp g (GraphOp.addRel r))
        (fun x hx => hno x (List.mem_cons_of_mem _ hx)) ?_ ?_ ?_ ?_ ?_
      · exact h1
      · exact h2
      · exact h3
      · simp only [applyOp, CodeGraph.add_relationship]
        have hnc : ¬ (r.from_id = i
            ∧ countKeys g.outgoing_edges r.from_id = 0) := by
          rintro ⟨he, hz⟩
          rw [he, h4] at hz
          exact Nat.one_ne_zero hz
        rw [countKeys_entryModify, if_neg hnc]
        exact h4
      · simp only [applyOp, CodeGraph.add_relationship]
        have hnc : ¬ (r.to_id = i
            ∧ countKeys g.incoming_edges r.to_id = 0) := by
          rintro ⟨he, hz⟩
          rw [he, h5] at hz
          exact Nat.one_ne_zero hz
        rw [countKeys_entryModify, if_neg hnc]
        exact h5

/-- C8: after any sequence of `add_node` / `add_relationship` calls
with pairwise-distinct node ids, every inserted node's id lies in
exactly one bucket of each of the by-kind, by-file and by-name
indices, and owns exactly one entry (possibly an empty list) in each
of the outgoing and incoming adjacency maps. -/
theorem add_node_index_consistency (ops : List GraphOp)
    (hnd : (addNodeIds ops).Nodup) (n : CodeNode)
    (hmem : GraphOp.addNode n ∈ ops) :
    bucketCount (buildGraph ops).nodes_by_type n.id = 1
    ∧ bucketCount (buildGraph ops).nodes_by_file n.id = 1
    ∧ bucketCount (buildGraph ops).nodes_by_name n.id = 1
    ∧ countKeys (buildGraph ops).outgoing_edges n.id = 1
    ∧ countKeys (buildGraph ops).incoming_edges n.id = 1 := by
  obtain ⟨l1, l2, rfl⟩ := List.append_of_mem hmem
  have hids : addNodeIds (l1 ++ GraphOp.addNode n :: l2)
      = addNodeIds l1 ++ n.id :: addNodeIds l2 := by
    unfold addNodeIds
    rw [List.filterMap_append]
    rfl
  rw [hids] at hnd
  have hnotl1 : ∀ m, GraphOp.addNode m ∈ l1 → m.id ≠ n.id := by
    intro m hm heq
    have h1 : n.id ∈ addNodeIds l1 := by
      rw [← heq]
      exact List.mem_filterMap.mpr ⟨GraphOp.addNode m, hm, rfl⟩
    exact (List.nodup_append.mp hnd).2.2 h1 (List.mem_cons_self _ _)
  have hnotl2 : ∀ m, GraphOp.addNode m ∈ l2 → m.id ≠ n.id := by
    intro m hm heq
    have h2 : n.id ∈ addNodeIds l2 := by
      rw [← heq]
      exact List.mem_filterMap.mpr ⟨GraphOp.addNode m, hm, rfl⟩
    exact (List.nodup_cons.mp (List.nodup_append.mp hnd).2.1).1 h2
  unfold buildGraph
  rw [List.foldl_append, List.foldl_cons]
  obtain ⟨hA1, hA2, hA3, hA4, hA5⟩ :=
    index_counts_phaseA n.id l1 CodeGraph.new hnotl1
      (by simp [bucketCount, CodeGraph.new])
      (by simp [bucketCount, CodeGraph.new])
      (by simp [bucketCount, CodeGraph.new])
      (by simp [countKeys, CodeGraph.new])
      (by simp [countKeys, CodeGraph.new])
  refine index_counts_phaseC n.id l2 _ hnotl2 ?_ ?_ ?_ ?_ ?_
  · simp only [applyOp, CodeGraph.add_node]
    exact bucketCount_entryModify_self _ _ _ hA1
  · simp only [applyOp, CodeGraph.add_node]
    exact bucketCount_entryModify_self _ _ _ hA2
  · simp only [applyOp, CodeGraph.add_node]
    exact bucketCount_entryModify_self _ _ _ hA3
  · simp only [applyOp, CodeGraph.add_node]
    rw [countKeys_entryModify]
    by_cases hz : countKeys
        (List.foldl applyOp CodeGraph.new l1).outgoing_edges n.id = 0
    · rw [if_pos ⟨rfl, hz⟩, hz]
    · rw [if_neg (fun h => hz h.2)]
      omega
  · simp only [applyOp, CodeGraph.add_node]
    rw [countKeys_entryModify]
    by_cases hz : countKeys
        (List.foldl applyOp CodeGraph.new l1).incoming_edges n.id = 0
    · rw [if_pos ⟨rfl, hz⟩, hz]
    · rw [if_neg (fun h => hz h.2)]
      omega

def idxNode1 : CodeNode :=
  { id := "x1", node_type := NodeType.Function, name := "first_fn",
    file_path := "w.rs", line_range := (1, 2), content := "", summary := none,
    metadata := [] }

def idxNode2 : CodeNode :=
  { id := "x2", node_type := NodeType.Class, name := "SecondCls",
    file_path := "w.rs", line_range := (3, 9), content := "", summary := none,
    metadata := [] }

def idxOps : List GraphOp :=
  [GraphOp.addNode idxNode1,
   GraphOp.addRel ⟨RelationshipType.Calls, "x1", "zz", []⟩,
   GraphOp.addNode idxNode2]

theorem add_node_index_consistency_witness :
    bucketCount (buildGraph idxOps).nodes_by_type idxNode1.id = 1
    ∧ bucketCount (buildGraph idxOps).nodes_by_file idxNode1.id = 1
    ∧ bucketCount (buildGraph idxOps).nodes_by_name idxNode1.id = 1
    ∧ countKeys (buildGraph idxOps).outgoing_edges idxNode1.id = 1
    ∧ countKeys (buildGraph idxOps).incoming_edges idxNode1.id = 1 :=
  add_node_index_consistency idxOps (by decide) idxNode1 (by decide)
